import Mathlib

/-!
Verification of the minimax search core of the board-games repository.

The development shallowly embeds the two agent modules:
* `pyplayergames/agents/minimax.py` (`IDDFSAgent`, `MaxnAgent`, `ParanoidAgent`),
* `pyboardgames/agents/minimax.py` (`IterativeDeepeningAgent`), embedded in
  namespace `IB`.

Modelling conventions:
* Python floats are modelled as extended rationals `XR` (`-inf`, finite, `+inf`);
  the claims are about comparisons, `max`/`min` and exact bound formulas, never
  about rounding, so this is faithful for them.
* Wall-clock time is modelled by a read counter `tick` and a clock function
  `clk : Nat -> Rat`; each `time.time()` call reads `clk tick` and bumps `tick`.
* `random.choice` and the random tie-breaks draw from a stream `rnd : Nat -> Nat`
  at index `rix` (bumped after each draw); `random.choice` on an empty list
  raises `IndexError` before drawing, as in CPython.
* Exceptions are modelled with `Except Err`; Python's `None` result of
  `depth_search` (time expired) is `Option.none` inside `Except.ok`, mirroring
  the value-based propagation of the source.
* Game-contract calls, the depth-zero cutoff, the detection of time expiry and
  transposition-table writes are recorded in an event trace in the agent state,
  so that "no call happens after X" claims become statements about the trace.
* The agents are run at `verbose = 0`: `console_output` only prints and (at
  verbosity >= 3) refreshes `_time_last`, which no claim observes.
-/

/-- Extended rationals: the model of Python floats (`-inf`, finite, `+inf`).
NaN never arises in the expressions the claims are about. -/
inductive XR : Type where
  | ninf : XR
  | fin : ℚ → XR
  | pinf : XR
deriving DecidableEq

namespace XR

/-- Strict `<` of Python floats. -/
def blt : XR → XR → Bool
  | ninf, ninf => false
  | ninf, _ => true
  | fin _, ninf => false
  | fin q, fin r => decide (q < r)
  | fin _, pinf => true
  | pinf, _ => false

/-- Non-strict `<=` of Python floats. -/
def ble : XR → XR → Bool
  | ninf, _ => true
  | fin _, ninf => false
  | fin q, fin r => decide (q ≤ r)
  | fin _, pinf => true
  | pinf, pinf => true
  | pinf, _ => false

/-- Python `max(a, b)` (returns `a` on ties; the value is the same either way). -/
def pmax (a b : XR) : XR := if blt a b then b else a

/-- Python `min(a, b)` (returns `a` on ties). -/
def pmin (a b : XR) : XR := if blt b a then b else a

/-- Finite minus extended: `q - x` as Python evaluates it on floats
(the left operand is always a finite game constant in the source). -/
def qsub (q : ℚ) : XR → XR
  | ninf => pinf
  | fin r => fin (q - r)
  | pinf => ninf

/-- Extended plus finite: `x + q` (the right operand is always finite). -/
def addq (q : ℚ) : XR → XR
  | ninf => ninf
  | fin r => fin (r + q)
  | pinf => pinf

end XR

/-- Tuple indexing `xs[i]` on a Python tuple of floats, for in-range indices.  Out-of-range
access would raise in Python; every claim only exercises in-range indices, and
the default value never influences a settled statement. -/
def idx (xs : List XR) (i : ℕ) : XR := xs.getD i (XR.fin 0)

/-- Game constants of the gamestate class being played (`players`, `lower`,
`upper_sum` attributes of the game contract). -/
structure GC : Type where
  players : ℕ
  lower : ℚ
  upper_sum : ℚ

/-- A gamestate together with its full game tree: `turn`, `score`,
`is_game_over()`, optional `hash_value`, and the `(move, get_next(move))`
pairs for `valid_moves`.  Moves are labelled by naturals. -/
inductive GTree : Type where
  | mk : ℕ → List XR → Bool → Option ℕ → List (ℕ × GTree) → GTree

def GTree.turn : GTree → ℕ
  | .mk t _ _ _ _ => t

def GTree.score : GTree → List XR
  | .mk _ sc _ _ _ => sc

def GTree.over : GTree → Bool
  | .mk _ _ o _ _ => o

def GTree.hash : GTree → Option ℕ
  | .mk _ _ _ h _ => h

def GTree.children : GTree → List (ℕ × GTree)
  | .mk _ _ _ _ c => c

/-- Events observable during a search: game-contract calls, the depth-zero
cutoff, detection of time expiry, and transposition-table writes. -/
inductive Ev : Type where
  | timeExpired : Ev
  | isGameOver : Ev
  | scoreRead : Ev
  | getNext : Ev
  | movesRead : Ev
  | depthZero : Ev
  | ttWrite : ℕ → Ev
deriving DecidableEq

/-- Python exceptions reaching the embedding, plus fuel exhaustion of the
modelled unbounded `while True` loop. -/
inductive Err : Type where
  | indexError : Err
  | fuelOut : Err
deriving DecidableEq

/-- Mutable agent state: clock read counter, random stream index, the transient
attributes `_time_ini`, `_time_last`, `_turn`, the `complete` flag, the LRU
transposition table `ttable` (front = least recently used, back = most
recently used), the statistics `depth_sum`/`move_count`, and the event trace. -/
structure St : Type where
  tick : ℕ
  rix : ℕ
  timeIni : ℚ
  timeLast : ℚ
  turnR : ℕ
  complete : Bool
  ttable : List (ℕ × List XR)
  depth_sum : ℕ
  move_count : ℕ
  trace : List Ev

/-- Agent configuration: the clock, the random stream, and the constructor
arguments `time`, `prune_enable`, `t_enable`, `t_cap`. -/
structure Cfg : Type where
  clk : ℕ → ℚ
  rnd : ℕ → ℕ
  budget : ℚ
  pruning : Bool
  t_enable : Bool
  t_cap : ℕ

/-- The three agent classes sharing the `IDDFSAgent` kernel. -/
inductive Variant : Type where
  | iddfs : Variant
  | maxn : Variant
  | paranoid : Variant
deriving DecidableEq

/-- The `**kwargs` dictionaries threaded through `depth_search`: empty (base
class), `{'bound': b}` (`MaxnAgent`), or `{'alpha': a, 'beta': b}`
(`ParanoidAgent`). -/
inductive KW : Type where
  | base : KW
  | bound : XR → KW
  | ab : XR → XR → KW
deriving DecidableEq

/-- Dictionary lookup in the transposition table (`self.ttable[h]`),
returning `none` where Python raises `KeyError`. -/
def ttLookup (h : ℕ) (t : List (ℕ × List XR)) : Option (List XR) :=
  (t.find? (fun p => p.1 == h)).map Prod.snd

/-- Embeds `IDDFSAgent.update_ttable` (minimax.py:299-311): store/overwrite the score
under the hash, `move_to_end` it, then `popitem(last=False)` once if the size
exceeds `t_cap`.  The guard `self.t_enable and hasattr(gamestate, 'hash_value')`
is the (`t_enable`, `hash`) match. -/
def update_ttable (t_enable : Bool) (t_cap : ℕ) (hash : Option ℕ)
    (score : List XR) (t : List (ℕ × List XR)) : List (ℕ × List XR) :=
  match t_enable, hash with
  | true, some h =>
    let t1 := (t.filter (fun p => p.1 != h)) ++ [(h, score)]
    if t_cap < t1.length then t1.drop 1 else t1
  | _, _ => t

/-- Embeds `IDDFSAgent.access_ttable` (minimax.py:215-232): on a hit `move_to_end`
then return the `turn` component; on `AttributeError` (no `hash_value`) or
`KeyError` (absent) return the estimate `upper_sum / players`. -/
def access_ttable (gc : GC) (hash : Option ℕ) (turn : ℕ)
    (t : List (ℕ × List XR)) : XR × List (ℕ × List XR) :=
  match hash with
  | none => (XR.fin (gc.upper_sum / (gc.players : ℚ)), t)
  | some h =>
    match ttLookup h t with
    | none => (XR.fin (gc.upper_sum / (gc.players : ℚ)), t)
    | some v => (idx v turn, (t.filter (fun p => p.1 != h)) ++ [(h, v)])

/-- Python `random.choice((True, False))`: one draw from the random stream. -/
def rand_bool (cfg : Cfg) (r : ℕ) : Bool := cfg.rnd r % 2 == 0

/-- Embeds `ParanoidAgent.prune` (minimax.py:484-496).  Note the `elif` branch of the
source tests only `best_score[self._turn] < kwargs['alpha']`, with no condition
on whose turn it is. -/
def paranoid_prune (pruning : Bool) (rootT gturn : ℕ) (best : List XR)
    (alpha beta : XR) : Bool :=
  if !pruning then false
  else if gturn == rootT && XR.blt beta (idx best rootT) then true
  else if XR.blt (idx best rootT) alpha then true
  else false

/-- Embeds `ParanoidAgent.calc_kwargs` (minimax.py:498-515): initialize
`(-inf, +inf)` when called with no keyword args, keep the bounds on a `None`
best score, otherwise tighten alpha (mover is root) or beta (otherwise). -/
def paranoid_calc_kwargs (rootT gturn : ℕ) (best : Option (List XR))
    (kw : KW) : KW :=
  match kw with
  | .base => KW.ab XR.ninf XR.pinf
  | .ab a b =>
    match best with
    | none => KW.ab a b
    | some bs =>
      if gturn == rootT then KW.ab (XR.pmax a (idx bs rootT)) b
      else KW.ab a (XR.pmin b (idx bs rootT))
  | k => k  -- a {'bound': _} dict never reaches this agent; Python would raise KeyError

/-- Embeds `ParanoidAgent._is_better` (minimax.py:517-527), with the tie-break result
passed in.  In the source, `turn == self._turn ^ (new < old)` parses as
`turn == (self._turn ^ (new < old))` since `^` binds tighter than `==` in
Python, and the bool is coerced to the integer 0 or 1. -/
def paranoid_is_better (rootT turn : ℕ) (new_s old_s : List XR)
    (tb : Bool) : Bool :=
  if idx new_s rootT == idx old_s rootT then tb
  else if turn == Nat.xor rootT (if XR.blt (idx new_s rootT) (idx old_s rootT) then 1 else 0)
  then true
  else false

/-- Embeds `MaxnAgent.prune` (minimax.py:398-412): shallow pruning, cut when
`best_score[gamestate.turn] >= kwargs['bound']`. -/
def maxn_prune (pruning : Bool) (gturn : ℕ) (best : List XR) (bound : XR) : Bool :=
  if !pruning then false
  else if XR.ble bound (idx best gturn) then true
  else false

/-- Embeds `MaxnAgent.calc_kwargs` (minimax.py:414-424): substitute the all-`lower`
tuple for a `None` best score and return
`{'bound': upper_sum - best_score[turn] + correction}` with
`correction = -(players - 2) * lower`. -/
def maxn_calc_kwargs (gc : GC) (gturn : ℕ) (best : Option (List XR)) : KW :=
  let bs := match best with
    | none => List.replicate gc.players (XR.fin gc.lower)
    | some b => b
  let correction : ℚ := -((gc.players : ℚ) - 2) * gc.lower
  KW.bound (XR.addq correction (XR.qsub gc.upper_sum (idx bs gturn)))

/-- Embeds `MaxnAgent._is_better` (minimax.py:426-435), tie-break result passed in. -/
def maxn_is_better (gturn : ℕ) (new_s old_s : List XR) (tb : Bool) : Bool :=
  if XR.blt (idx old_s gturn) (idx new_s gturn) then true
  else if idx new_s gturn == idx old_s gturn then tb
  else false

/-- Embeds `MaxnAgent.tiebreak` (minimax.py:437-445): prefer the score that is worse
for the agent's root player, else decide randomly.  Returns the Bool and
whether a random draw was consumed. -/
def maxn_tiebreak (rootT : ℕ) (new_s old_s : List XR) (rb : Bool) : Bool × Bool :=
  if XR.blt (idx new_s rootT) (idx old_s rootT) then (true, false)
  else (rb, true)

/-- Dispatch of `_is_better`/`tiebreak` on the agent class, threading the
random-stream index (`IDDFSAgent._is_better` is constantly `False`;
`ParanoidAgent.tiebreak` is a bare random draw). -/
def is_better_d (v : Variant) (cfg : Cfg) (rootT turn : ℕ)
    (new_s old_s : List XR) (r : ℕ) : Bool × ℕ :=
  match v with
  | .iddfs => (false, r)
  | .maxn =>
    if XR.blt (idx old_s turn) (idx new_s turn) then (true, r)
    else if idx new_s turn == idx old_s turn then
      match maxn_tiebreak rootT new_s old_s (rand_bool cfg r) with
      | (b, true) => (b, r + 1)
      | (b, false) => (b, r)
    else (false, r)
  | .paranoid =>
    if idx new_s rootT == idx old_s rootT then (rand_bool cfg r, r + 1)
    else (paranoid_is_better rootT turn new_s old_s false, r)

/-- Dispatch of `prune` on the agent class (`IDDFSAgent.prune` is constantly
`False`).  `KW` mismatches cannot arise: `calc_kwargs` of the same agent
produced the dictionary. -/
def prune_d (v : Variant) (cfg : Cfg) (rootT gturn : ℕ) (best : List XR)
    (kw : KW) : Bool :=
  match v, kw with
  | .iddfs, _ => false
  | .maxn, .bound b => maxn_prune cfg.pruning gturn best b
  | .maxn, _ => false
  | .paranoid, .ab a b => paranoid_prune cfg.pruning rootT gturn best a b
  | .paranoid, _ => false

/-- Dispatch of `calc_kwargs` on the agent class. -/
def calc_kwargs_d (v : Variant) (gc : GC) (rootT gturn : ℕ)
    (best : Option (List XR)) (kw : KW) : KW :=
  match v with
  | .iddfs => KW.base
  | .maxn => maxn_calc_kwargs gc gturn best
  | .paranoid => paranoid_calc_kwargs rootT gturn best kw

/-- The sort keys of `MaxnAgent.order_moves`/`ParanoidAgent.order_moves`:
`access_ttable` evaluated left to right on the decorated list, threading the
LRU reordering done by hits. -/
def computeKeys (gc : GC) (turn : ℕ) :
    List (ℕ × GTree) → List (ℕ × List XR) →
    List ((ℕ × GTree) × XR) × List (ℕ × List XR)
  | [], t => ([], t)
  | c :: cs, t =>
    let p := access_ttable gc c.2.hash turn t
    let q := computeKeys gc turn cs p.2
    ((c, p.1) :: q.1, q.2)

/-- Stable insertion into a descending run: `x` goes after every kept element
whose key is at least `x`'s (Python's stable `sorted(..., reverse=True)`). -/
def insDesc (x : (ℕ × GTree) × XR) :
    List ((ℕ × GTree) × XR) → List ((ℕ × GTree) × XR)
  | [] => [x]
  | y :: ys => if XR.ble x.2 y.2 then y :: insDesc x ys else x :: y :: ys

/-- Stable insertion into an ascending run (Python's stable `sorted`). -/
def insAsc (x : (ℕ × GTree) × XR) :
    List ((ℕ × GTree) × XR) → List ((ℕ × GTree) × XR)
  | [] => [x]
  | y :: ys => if XR.ble y.2 x.2 then y :: insAsc x ys else x :: y :: ys

/-- Stable sort, descending by key. -/
def sortDesc (xs : List ((ℕ × GTree) × XR)) : List ((ℕ × GTree) × XR) :=
  xs.foldl (fun acc x => insDesc x acc) []

/-- Stable sort, ascending by key. -/
def sortAsc (xs : List ((ℕ × GTree) × XR)) : List ((ℕ × GTree) × XR) :=
  xs.foldl (fun acc x => insAsc x acc) []

/-- Embeds `order_moves` of the three classes (minimax.py:199-213, 386-396, 472-482):
build `[(move, get_next(move)) for move in valid_moves]` (one `valid_moves`
read and one `get_next` per move), then possibly stable-sort by cached score. -/
def order_moves_d (v : Variant) (gc : GC) (g : GTree) (s : St) :
    List (ℕ × GTree) × St :=
  let tr := s.trace ++ (Ev.movesRead :: List.replicate g.children.length Ev.getNext)
  match v with
  | .iddfs => (g.children, { s with trace := tr })
  | .maxn =>
    let kt := computeKeys gc g.turn g.children s.ttable
    ((sortDesc kt.1).map Prod.fst, { s with trace := tr, ttable := kt.2 })
  | .paranoid =>
    let kt := computeKeys gc s.turnR g.children s.ttable
    ((if g.turn == s.turnR then sortDesc kt.1 else sortAsc kt.1).map Prod.fst,
     { s with trace := tr, ttable := kt.2 })

/-- The transposition write of `depth_search` (minimax.py:192-193): update the
table and record a `ttWrite` event exactly when a write happens. -/
def ttPut (cfg : Cfg) (hash : Option ℕ) (score : List XR) (s : St) : St :=
  match cfg.t_enable, hash with
  | true, some h =>
    { s with ttable := update_ttable cfg.t_enable cfg.t_cap (some h) score s.ttable,
             trace := s.trace ++ [Ev.ttWrite h] }
  | _, _ => s

/-- The `for move, next_state in ordered_states[1:]` loop of
`IDDFSAgent.depth_search` (minimax.py:177-191): prune-break, recurse via
`step` (the search one ply deeper), propagate `None` (time) and exceptions,
keep the better of child score and best.  Carries
(`best_score`, `best_move`, `best_pv`). -/
def searchRest (v : Variant) (cfg : Cfg)
    (step : GTree → KW → St → Except Err (Option (List XR × List ℕ)) × St)
    (ckw : Option (List XR) → KW) (gturn : ℕ) (kw : KW) :
    List (ℕ × GTree) → List XR → ℕ → List ℕ → St →
    Except Err (Option (List XR × ℕ × List ℕ)) × St
  | [], bs, bm, bpv, s => (.ok (some (bs, bm, bpv)), s)
  | (m, ns) :: rest, bs, bm, bpv, s =>
    if prune_d v cfg s.turnR gturn bs kw then (.ok (some (bs, bm, bpv)), s)
    else
      match step ns (ckw (some bs)) s with
      | (.error e, s1) => (.error e, s1)
      | (.ok none, s1) => (.ok none, s1)
      | (.ok (some (sc, pv)), s1) =>
        if (is_better_d v cfg s1.turnR gturn sc bs s1.rix).1 then
          searchRest v cfg step ckw gturn kw rest sc m pv
            { s1 with rix := (is_better_d v cfg s1.turnR gturn sc bs s1.rix).2 }
        else
          searchRest v cfg step ckw gturn kw rest bs bm bpv
            { s1 with rix := (is_better_d v cfg s1.turnR gturn sc bs s1.rix).2 }

/-- Embeds `IDDFSAgent.depth_search` (minimax.py:131-197).  Checks, in source order:
wall clock, `is_game_over()`, `depth == 0`; otherwise orders the children,
searches the first, loops over the rest, writes the transposition table and
appends the chosen move to the principal variation.  The two depth patterns
share the leading checks; the source reaches `depth == 0` only after the time
and terminal checks, exactly as here. -/
def depth_search (v : Variant) (gc : GC) (cfg : Cfg) :
    ℕ → GTree → KW → St → Except Err (Option (List XR × List ℕ)) × St
  | 0, g, _, s =>
    if XR.ble (XR.fin cfg.budget) (XR.fin (cfg.clk s.tick - s.timeIni)) then
      (.ok none, { s with tick := s.tick + 1, trace := s.trace ++ [Ev.timeExpired] })
    else
      if g.over then
        (.ok (some (g.score, [])),
         { s with tick := s.tick + 1,
                  trace := (s.trace ++ [Ev.isGameOver]) ++ [Ev.scoreRead] })
      else
        (.ok (some (g.score, [])),
         { s with tick := s.tick + 1, complete := false,
                  trace := (s.trace ++ [Ev.isGameOver]) ++ [Ev.depthZero, Ev.scoreRead] })
  | d + 1, g, kw, s =>
    if XR.ble (XR.fin cfg.budget) (XR.fin (cfg.clk s.tick - s.timeIni)) then
      (.ok none, { s with tick := s.tick + 1, trace := s.trace ++ [Ev.timeExpired] })
    else
      if g.over then
        (.ok (some (g.score, [])),
         { s with tick := s.tick + 1,
                  trace := (s.trace ++ [Ev.isGameOver]) ++ [Ev.scoreRead] })
      else
        match order_moves_d v gc g
            { s with tick := s.tick + 1, trace := s.trace ++ [Ev.isGameOver] } with
        | (ordered, s2) =>
          match ordered with
          | [] => (.error .indexError, s2)
          | (m0, g0) :: rest =>
            match depth_search v gc cfg d g0
                (calc_kwargs_d v gc s2.turnR g.turn none kw) s2 with
            | (.error e, s3) => (.error e, s3)
            | (.ok none, s3) => (.ok none, s3)
            | (.ok (some (bs0, bpv0)), s3) =>
              match searchRest v cfg (depth_search v gc cfg d)
                  (fun best => calc_kwargs_d v gc s2.turnR g.turn best kw) g.turn kw
                  rest bs0 m0 bpv0 s3 with
              | (.error e, s4) => (.error e, s4)
              | (.ok none, s4) => (.ok none, s4)
              | (.ok (some (bs, bm, bpv)), s4) =>
                (.ok (some (bs, bpv ++ [bm])), ttPut cfg g.hash bs s4)
termination_by structural d _g _kw _s => d

/-- The `while True` loop of `IDDFSAgent.get_move` (minimax.py:102-129), with
fuel for the unbounded iteration.  Each round resets `complete`, seeds the
keyword args with `calc_kwargs(gamestate, None)`, searches, and either returns
the saved move (time expired), the freshly chosen move (tree complete), or
deepens. -/
def getMoveLoop (v : Variant) (gc : GC) (cfg : Cfg) (g : GTree) :
    ℕ → ℕ → ℕ → St → Except Err ℕ × St
  | 0, _, _, s => (.error .fuelOut, s)
  | f + 1, depth, saved, s =>
    let s1 : St := { s with complete := true }
    let kw := calc_kwargs_d v gc s1.turnR g.turn none KW.base
    match depth_search v gc cfg depth g kw s1 with
    | (.error e, s2) => (.error e, s2)
    | (.ok none, s2) =>
      (.ok saved, { s2 with depth_sum := s2.depth_sum + (depth - 1),
                            move_count := s2.move_count + 1 })
    | (.ok (some (_, pv)), s2) =>
      match pv.getLast? with
      | none => (.error .indexError, s2)  -- pv[-1] on an empty list
      | some m =>
        if s2.complete then
          (.ok m, { s2 with depth_sum := s2.depth_sum + depth,
                            move_count := s2.move_count + 1 })
        else getMoveLoop v gc cfg g f (depth + 1) m s2

/-- Embeds `IDDFSAgent.get_move` (minimax.py:78-129): set `_time_ini`, `_time_last`
and `_turn`, draw the random fallback move (`IndexError` on an empty move
list, before any search or table access), then iterate depths from 1. -/
def get_move (v : Variant) (gc : GC) (cfg : Cfg) (g : GTree) (fuel : ℕ)
    (s : St) : Except Err ℕ × St :=
  let sa : St := { s with timeIni := cfg.clk s.tick, tick := s.tick + 1 }
  let sb : St := { sa with timeLast := cfg.clk sa.tick, tick := sa.tick + 1 }
  let sc : St := { sb with turnR := g.turn, trace := sb.trace ++ [Ev.movesRead] }
  match g.children.map Prod.fst with
  | [] => (.error .indexError, sc)
  | m :: ms =>
    let saved := (m :: ms).getD (cfg.rnd sc.rix % (m :: ms).length) 0
    getMoveLoop v gc cfg g fuel 1 saved { sc with rix := sc.rix + 1 }

namespace IB

/-- The `for move in gamestate.valid_moves[1:]` loop of
`IterativeDeepeningAgent.depth_score` (pyboardgames minimax.py:124-134):
score each child, propagate `None`, keep the max^n best with the paranoid
tie-break `score[self.root_turn] < max_score[self.root_turn]` (the root turn
is read from the agent state). -/
def depth_rest (step : GTree → St → Except Err (Option (List XR)) × St)
    (gturn : ℕ) : List (ℕ × GTree) → List XR → St →
    Except Err (Option (List XR)) × St
  | [], maxs, s => (.ok (some maxs), s)
  | (_, ns) :: rest, maxs, s =>
    let sa : St := { s with trace := s.trace ++ [Ev.getNext] }
    match step ns sa with
    | (.error e, s1) => (.error e, s1)
    | (.ok none, s1) => (.ok none, s1)
    | (.ok (some sc), s1) =>
      if XR.blt (idx maxs gturn) (idx sc gturn) then
        depth_rest step gturn rest sc s1
      else if idx sc gturn == idx maxs gturn
          && XR.blt (idx sc s1.turnR) (idx maxs s1.turnR) then
        depth_rest step gturn rest sc s1
      else depth_rest step gturn rest maxs s1

/-- Embeds `IterativeDeepeningAgent.depth_score` (pyboardgames minimax.py:92-136):
plain max^n, no pruning and no transposition table. -/
def depth_score (cfg : Cfg) : ℕ → GTree → St → Except Err (Option (List XR)) × St
  | 0, g, s =>
    if XR.ble (XR.fin cfg.budget) (XR.fin (cfg.clk s.tick - s.timeIni)) then
      (.ok none, { s with tick := s.tick + 1, trace := s.trace ++ [Ev.timeExpired] })
    else
      let s1 : St := { s with tick := s.tick + 1, trace := s.trace ++ [Ev.isGameOver] }
      if g.over then
        (.ok (some g.score), { s1 with trace := s1.trace ++ [Ev.scoreRead] })
      else
        (.ok (some g.score),
         { s1 with complete := false, trace := s1.trace ++ [Ev.depthZero, Ev.scoreRead] })
  | d + 1, g, s =>
    if XR.ble (XR.fin cfg.budget) (XR.fin (cfg.clk s.tick - s.timeIni)) then
      (.ok none, { s with tick := s.tick + 1, trace := s.trace ++ [Ev.timeExpired] })
    else
      let s1 : St := { s with tick := s.tick + 1, trace := s.trace ++ [Ev.isGameOver] }
      if g.over then
        (.ok (some g.score), { s1 with trace := s1.trace ++ [Ev.scoreRead] })
      else
        let s2 : St := { s1 with trace := s1.trace ++ [Ev.movesRead] }
        match g.children with
        | [] => (.error .indexError, s2)  -- valid_moves[0] on an empty list
        | (_, g0) :: rest =>
          let s3 : St := { s2 with trace := s2.trace ++ [Ev.getNext] }
          match depth_score cfg d g0 s3 with
          | (.error e, s4) => (.error e, s4)
          | (.ok none, s4) => (.ok none, s4)
          | (.ok (some ms), s4) =>
            depth_rest (depth_score cfg d) g.turn rest ms s4
termination_by structural d _g _s => d

/-- The `for move in gamestate.valid_moves` loop at the root of
`IterativeDeepeningAgent.get_move` (pyboardgames minimax.py:65-79): collect
the moves achieving the maximal root-component score (a scalar tracker
initialized to `-inf`). -/
def rootChildren (cfg : Cfg) (d : ℕ) (gturn : ℕ) :
    List (ℕ × GTree) → XR → List ℕ → St →
    Except Err (Option (XR × List ℕ)) × St
  | [], maxs, best, s => (.ok (some (maxs, best)), s)
  | (m, ns) :: rest, maxs, best, s =>
    let sa : St := { s with trace := s.trace ++ [Ev.getNext] }
    match depth_score cfg d ns sa with
    | (.error e, s1) => (.error e, s1)
    | (.ok none, s1) => (.ok none, s1)
    | (.ok (some sc), s1) =>
      if XR.blt maxs (idx sc gturn) then
        rootChildren cfg d gturn rest (idx sc gturn) [m] s1
      else if idx sc gturn == maxs then
        rootChildren cfg d gturn rest maxs (best ++ [m]) s1
      else rootChildren cfg d gturn rest maxs best s1

/-- The `while True` loop of `IterativeDeepeningAgent.get_move`
(pyboardgames minimax.py:59-90), with fuel. -/
def rootLoop (cfg : Cfg) (g : GTree) : ℕ → ℕ → ℕ → St → Except Err ℕ × St
  | 0, _, _, s => (.error .fuelOut, s)
  | f + 1, depth, saved, s =>
    let s1 : St := { s with complete := true, trace := s.trace ++ [Ev.movesRead] }
    match rootChildren cfg (depth - 1) g.turn g.children XR.ninf [] s1 with
    | (.error e, s2) => (.error e, s2)
    | (.ok none, s2) => (.ok saved, s2)
    | (.ok (some (_, best)), s2) =>
      match best with
      | [] => (.error .indexError, s2)  -- random.choice([]) cannot happen here
      | b :: bs =>
        let m := (b :: bs).getD (cfg.rnd s2.rix % (b :: bs).length) 0
        let s3 : St := { s2 with rix := s2.rix + 1 }
        if s3.complete then (.ok m, s3) else rootLoop cfg g f (depth + 1) m s3

/-- Embeds `IterativeDeepeningAgent.get_move` (pyboardgames minimax.py:38-90): if
exactly one legal move exists it is returned at once — before the clock is
read, before `root_turn` is set and before any search; otherwise set the
transient attributes, draw the random fallback move and iterate depths. -/
def get_move (cfg : Cfg) (g : GTree) (fuel : ℕ) (s : St) : Except Err ℕ × St :=
  let sa : St := { s with trace := s.trace ++ [Ev.movesRead] }
  match g.children.map Prod.fst with
  | [m] => (.ok m, sa)
  | ms =>
    let sb : St := { sa with timeIni := cfg.clk sa.tick, tick := sa.tick + 1 }
    let sc : St := { sb with turnR := g.turn }
    match ms with
    | [] => (.error .indexError, sc)
    | m :: mrest =>
      let saved := (m :: mrest).getD (cfg.rnd sc.rix % (m :: mrest).length) 0
      rootLoop cfg g fuel 1 saved { sc with rix := sc.rix + 1 }

end IB

/-!  Spec-side definitions, written from the claims' wording, to be compared
with the embedded source functions. -/

/-- The alpha-beta prune rule exactly as claim C1 words it: prune iff the
mover is the root player and `best[root] > beta`, or the mover is NOT the
root player and `best[root] < alpha`. -/
def prune_rule_claimed (rootT gturn : ℕ) (best : List XR) (alpha beta : XR) : Bool :=
  (gturn == rootT && XR.blt beta (idx best rootT))
  || (gturn != rootT && XR.blt (idx best rootT) alpha)

/-- The paranoid comparison exactly as claim C2 words it: only the root
component matters; the root player prefers strictly larger, every other mover
strictly smaller; equal components defer to the tie-break. -/
def better_rule_claimed (rootT turn : ℕ) (new_s old_s : List XR) (tb : Bool) : Bool :=
  if idx new_s rootT == idx old_s rootT then tb
  else if turn == rootT then XR.blt (idx old_s rootT) (idx new_s rootT)
  else XR.blt (idx new_s rootT) (idx old_s rootT)

/-- The shallow-pruning bound exactly as claim C5 words it:
`bound = upper_sum - best[mover] + correction`,
`correction = -(players - 2) * lower`. -/
def bound_claimed (gc : GC) (best : List XR) (mover : ℕ) : XR :=
  XR.addq (-((gc.players : ℚ) - 2) * gc.lower) (XR.qsub gc.upper_sum (idx best mover))

/-- Bounded LRU insertion as §4.2 of the spec words it: the old entry for the
key is removed, the new score appended at the most-recently-used end, and the
single least-recently-used entry evicted when the size exceeds the capacity. -/
def lru_insert_claimed (cap : ℕ) (h : ℕ) (sc : List XR)
    (t : List (ℕ × List XR)) : List (ℕ × List XR) :=
  let t1 := (t.filter (fun p => p.1 != h)) ++ [(h, sc)]
  if t1.length > cap then t1.drop 1 else t1

/-!  Concrete fixtures used by witnesses and counterexamples. -/

/-- Game constants of a 2-player zero-sum game with scores in `[-10, 10]`. -/
def gc0 : GC := ⟨2, -10, 0⟩

/-- A configuration with a stuck clock (no time pressure) and an arbitrary
fixed random stream, 30 second budget, everything enabled. -/
def cfg0 : Cfg := ⟨fun _ => 0, fun _ => 0, 30, true, true, 100000⟩

/-- Like `cfg0` but with the random stream left free. -/
def cfg9 (rnd : ℕ → ℕ) : Cfg := ⟨fun _ => 0, rnd, 30, true, true, 100000⟩

/-- A configuration whose clock is far past the deadline from the start. -/
def cfgX : Cfg := ⟨fun _ => 100, fun _ => 0, 1, true, true, 100000⟩

/-- A fresh agent state (all transients zero, table empty, flag true). -/
def s0 : St := ⟨0, 0, 0, 0, 0, true, [], 0, 0, []⟩

/-- Terminal position with score `(3, -3)`. -/
def leafA : GTree := .mk 1 [XR.fin 3, XR.fin (-3)] true none []

/-- Terminal position with score `(5, -5)`. -/
def leafB : GTree := .mk 1 [XR.fin 5, XR.fin (-5)] true none []

/-- The claim C9 scenario: player 0 to move, two children, terminal scores
`(3,-3)` and `(5,-5)`, reached by moves `1` and `2`. -/
def root0 : GTree := .mk 0 [XR.fin 0, XR.fin 0] false none [(1, leafA), (2, leafB)]

/-- A position whose only legal move `7` leads to a terminal position. -/
def single0 : GTree := .mk 0 [XR.fin 0, XR.fin 0] false none [(7, leafA)]

/-- Game constants with `upper_sum = 10`, `players = 2`, so that the
table-miss estimate is `5`. -/
def gc7 : GC := ⟨2, -10, 10⟩

/-- Claim C1 (corrected).  At mover = root player = 0, `best[root] = 0`,
`alpha = 1`, `beta = 5`, the source's `ParanoidAgent.prune` returns `True`
(via its `elif best_score[self._turn] < kwargs['alpha']` branch, which is not
restricted to non-root movers), while the claimed rule says no prune: the
mover is the root player and `best[root] = 0` is not `> beta = 5`. -/
theorem C1_counterexample :
    paranoid_prune true 0 0 [XR.fin 0] (XR.fin 1) (XR.fin 5) = true
    ∧ prune_rule_claimed 0 0 [XR.fin 0] (XR.fin 1) (XR.fin 5) = false := by
  constructor
  · with_unfolding_all rfl
  · with_unfolding_all rfl

/-- Claim C1 as amended: with pruning enabled, `ParanoidAgent.prune` returns
`True` exactly when the mover is the root player and `best[root] > beta`, OR
`best[root] < alpha` (this second case regardless of the mover); and
`ParanoidAgent.calc_kwargs` tightens alpha to `max(alpha, best[root])` for the
root mover and beta to `min(beta, best[root])` otherwise, leaving the other
bound unchanged. -/
theorem C1_amended :
    (∀ (rootT gturn : ℕ) (best : List XR) (a b : XR),
      paranoid_prune true rootT gturn best a b =
        ((gturn == rootT && XR.blt b (idx best rootT)) || XR.blt (idx best rootT) a))
    ∧ (∀ (rootT gturn : ℕ) (best : List XR) (a b : XR),
      paranoid_calc_kwargs rootT gturn (some best) (KW.ab a b) =
        if gturn == rootT then KW.ab (XR.pmax a (idx best rootT)) b
        else KW.ab a (XR.pmin b (idx best rootT))) := by
  constructor
  · intro rootT gturn best a b
    simp only [paranoid_prune, Bool.not_true, Bool.false_eq_true, if_false]
    cases h1 : (gturn == rootT && XR.blt b (idx best rootT)) <;>
      cases h2 : XR.blt (idx best rootT) a <;> simp [h1, h2]
  · intro rootT gturn best a b
    rfl

/-- Claim C2 (code bug).  Failing input: 3 players, root player 0, mover 2,
new score `(0,0,0)`, old score `(1,0,0)`.  The new root component is strictly
smaller and the mover is not the root player, so the claimed (and documented)
paranoid rule says "better"; `ParanoidAgent._is_better` returns `False` for
either tie-break value, because `turn == self._turn ^ (new < old)` parses as
`turn == (self._turn ^ (new < old))` — `^` binds tighter than `==` in Python —
which here tests `2 == 0 ^ 1 = 1`. -/
theorem C2_xor_precedence_bug :
    paranoid_is_better 0 2 [XR.fin 0, XR.fin 0, XR.fin 0]
        [XR.fin 1, XR.fin 0, XR.fin 0] true = false
    ∧ paranoid_is_better 0 2 [XR.fin 0, XR.fin 0, XR.fin 0]
        [XR.fin 1, XR.fin 0, XR.fin 0] false = false
    ∧ better_rule_claimed 0 2 [XR.fin 0, XR.fin 0, XR.fin 0]
        [XR.fin 1, XR.fin 0, XR.fin 0] false = true := by
  refine ⟨?_, ?_, ?_⟩
  · with_unfolding_all rfl
  · with_unfolding_all rfl
  · with_unfolding_all rfl

/-- Claim C5 (confirmed).  With pruning enabled `MaxnAgent.prune` cuts the
remaining children exactly when `best[mover] >= bound` (the bound of the
current frame); with pruning disabled it never prunes;
`MaxnAgent.calc_kwargs` recomputes the child bound from the current best as
`upper_sum - best[mover] + correction` with `correction = -(players-2)*lower`,
and the initial bound (no best score yet) substitutes the all-`lower` tuple
for `best`. -/
theorem C5_shallow_prune_bound :
    (∀ (gturn : ℕ) (best : List XR) (b : XR),
      maxn_prune true gturn best b = XR.ble b (idx best gturn))
    ∧ (∀ (gturn : ℕ) (best : List XR) (b : XR),
      maxn_prune false gturn best b = false)
    ∧ (∀ (gc : GC) (gturn : ℕ) (best : List XR),
      maxn_calc_kwargs gc gturn (some best) = KW.bound (bound_claimed gc best gturn))
    ∧ (∀ (gc : GC) (gturn : ℕ),
      maxn_calc_kwargs gc gturn none =
        KW.bound (bound_claimed gc (List.replicate gc.players (XR.fin gc.lower)) gturn)) := by
  refine ⟨?_, ?_, ?_, ?_⟩
  · intro gturn best b
    cases h : XR.ble b (idx best gturn) <;> simp [maxn_prune, h]
  · intro gturn best b
    rfl
  · intro gc gturn best
    rfl
  · intro gc gturn
    rfl

/-- Claim C7 (corrected).  The "miss" result of `IDDFSAgent.access_ttable` is
the ordinary estimate `upper_sum / players`, not a sentinel: with
`upper_sum = 10`, `players = 2`, looking up the absent hash `2` returns `5`,
which coincides with the cached score component of the stored entry `1` —
indistinguishable from a hit value. -/
theorem C7_counterexample :
    ttLookup 2 [(1, [XR.fin 5])] = none
    ∧ (access_ttable gc7 (some 2) 0 [(1, [XR.fin 5])]).1 = idx [XR.fin 5] 0 := by
  constructor
  · rfl
  · with_unfolding_all rfl

/-- Claim C7 as amended: a lookup for a position absent from the table, or
whose game supplies no position hash, returns the average-value estimate
`upper_sum / players` — an ordinary score-scale value, not a distinguishable
sentinel — leaves the table unchanged, and never raises. -/
theorem C7_amended :
    (∀ (gc : GC) (turn : ℕ) (t : List (ℕ × List XR)),
      access_ttable gc none turn t = (XR.fin (gc.upper_sum / (gc.players : ℚ)), t))
    ∧ (∀ (gc : GC) (h turn : ℕ) (t : List (ℕ × List XR)), ttLookup h t = none →
      access_ttable gc (some h) turn t =
        (XR.fin (gc.upper_sum / (gc.players : ℚ)), t)) := by
  constructor
  · intro gc turn t
    rfl
  · intro gc h turn t hmiss
    simp [access_ttable, hmiss]

/-- Witness for `C7_amended`: the miss branch evaluated at hash `5` in the
empty table. -/
theorem C7_amended_witness :
    access_ttable gc7 (some 5) 0 [] = (XR.fin 5, []) := by
  have h := C7_amended.2 gc7 5 0 [] rfl
  rw [h]
  with_unfolding_all rfl

/-- Claim C8 (corrected).  `IDDFSAgent.get_move` has no single-move shortcut:
on the position `single0`, whose only legal move is `7`, it does return `7`,
but only after running the search — the event trace of the call records
`is_game_over()` and `get_next` game-contract calls, contradicting "no search
and no game-contract calls beyond reading the move list". -/
theorem C8_counterexample :
    (get_move .iddfs gc0 cfg0 single0 3 s0).1 = .ok 7
    ∧ (get_move .iddfs gc0 cfg0 single0 3 s0).2.trace.contains Ev.getNext = true
    ∧ (get_move .iddfs gc0 cfg0 single0 3 s0).2.trace.contains Ev.isGameOver = true := by
  refine ⟨?_, ?_, ?_⟩
  · with_unfolding_all rfl
  · with_unfolding_all rfl
  · with_unfolding_all rfl

/-- Claim C8 as amended: the single-move shortcut exists only in
`pyboardgames`' `IterativeDeepeningAgent.get_move`, which returns the unique
legal move immediately — before the clock is read, before `root_turn` is set,
with no search and no game-contract call beyond the one read of the move
list.  (`pyplayergames`' `IDDFSAgent.get_move` searches even then, see the
counterexample, though the move it finally returns is still that move.) -/
theorem C8_amended :
    ∀ (cfg : Cfg) (fuel : ℕ) (s : St) (turn : ℕ) (sc : List XR) (ov : Bool)
      (h : Option ℕ) (m : ℕ) (t : GTree),
      IB.get_move cfg (GTree.mk turn sc ov h [(m, t)]) fuel s =
        (.ok m, { s with trace := s.trace ++ [Ev.movesRead] }) := by
  intro cfg fuel s turn sc ov h m t
  rfl

/-- Claim C9 (confirmed).  On the 2-player scenario tree `root0` (root score
`(0,0)`, player 0 to move, terminal children `(3,-3)` via move 1 and `(5,-5)`
via move 2), both `MaxnAgent` and `ParanoidAgent` choose move 2 — the child
maximizing player 0's component — whatever the agents' random stream is. -/
theorem C9_depth2_minimax :
    ∀ rnd : ℕ → ℕ,
      (get_move .maxn gc0 (cfg9 rnd) root0 3 s0).1 = .ok 2
      ∧ (get_move .paranoid gc0 (cfg9 rnd) root0 3 s0).1 = .ok 2 := by
  intro rnd
  constructor
  · with_unfolding_all rfl
  · with_unfolding_all rfl

/-- Claim C10 (confirmed).  On a gamestate with no legal moves,
`IDDFSAgent.get_move` raises `IndexError` at `random.choice(valid_moves)`:
the transposition table, `complete` flag, `depth_sum`/`move_count` statistics
and random stream are untouched, no search and no table access has happened
(the trace gains only the `valid_moves` read), while the transient attributes
`_time_ini`, `_time_last` and `_turn` have already been overwritten. -/
theorem C10_empty_moves_raises :
    ∀ (v : Variant) (gc : GC) (cfg : Cfg) (fuel : ℕ) (s : St) (turn : ℕ)
      (sc : List XR) (ov : Bool) (h : Option ℕ),
      get_move v gc cfg (GTree.mk turn sc ov h []) fuel s =
        (.error .indexError,
         { s with timeIni := cfg.clk s.tick, timeLast := cfg.clk (s.tick + 1),
                  tick := s.tick + 2, turnR := turn,
                  trace := s.trace ++ [Ev.movesRead] }) := by
  intro v gc cfg fuel s turn sc ov h
  rfl

/-- Folding LRU insertion of pairwise-distinct hashes into the empty table
keeps exactly the sliding window of the last `cap` insertions. -/
theorem lru_fold (cap : ℕ) (hcap : 0 < cap) :
    ∀ ps : List (ℕ × List XR), (ps.map Prod.fst).Nodup →
      ps.foldl (fun t p => update_ttable true cap (some p.1) p.2 t) [] =
        ps.drop (ps.length - cap) := by
  intro ps
  induction ps using List.reverseRecOn with
  | nil => intro _; simp
  | append_singleton ps p ih =>
    intro hnd
    rw [List.map_append] at hnd
    have hps : (ps.map Prod.fst).Nodup := (List.nodup_append.mp hnd).1
    have hnotin : p.1 ∉ ps.map Prod.fst := by
      intro hmem
      exact (List.nodup_append.mp hnd).2.2 hmem (by simp)
    rw [List.foldl_append, ih hps, List.foldl_cons, List.foldl_nil]
    set k := ps.length - cap with hk
    have hfil : (ps.drop k).filter (fun q => q.1 != p.1) = ps.drop k := by
      apply List.filter_eq_self.mpr
      intro a ha
      have hmem : a ∈ ps := List.drop_subset k ps ha
      have hne : a.1 ≠ p.1 := by
        intro he
        exact hnotin (he ▸ List.mem_map_of_mem Prod.fst hmem)
      simpa using hne
    show update_ttable true cap (some p.1) p.2 (ps.drop k) = _
    rw [update_ttable, hfil]
    by_cases hlen : ps.length < cap
    · have hk0 : k = 0 := by omega
      rw [if_neg (by simp [List.length_drop]; omega)]
      have : (ps ++ [p]).length - cap = 0 := by simp; omega
      rw [this, List.drop_zero, hk0, List.drop_zero]
    · push_neg at hlen
      rw [if_pos (by simp [List.length_drop]; omega)]
      rw [List.drop_append_of_le_length (by simp [List.length_drop]; omega)]
      rw [List.drop_drop]
      rw [show (ps ++ [p]).length - cap = ps.length + 1 - cap by simp]
      rw [List.drop_append_of_le_length (by omega)]
      congr 2
      omega

/-- Claim C6 (confirmed).  `update_ttable` (with the table enabled and a hash
present) is exactly the bounded-LRU insertion of the spec: overwrite, mark
most recently used, evict the single least-recently-used entry when the size
exceeds the capacity; `access_ttable` on a hit marks the entry most recently
used and returns its component at the requested player index; and inserting
pairwise-distinct hashes into an empty table of capacity `K` leaves exactly
the `K` most recently inserted entries, in recency order. -/
theorem C6_ttable_lru :
    (∀ (cap h : ℕ) (sc : List XR) (t : List (ℕ × List XR)),
      update_ttable true cap (some h) sc t = lru_insert_claimed cap h sc t)
    ∧ (∀ (gc : GC) (h turn : ℕ) (t : List (ℕ × List XR)) (v : List XR),
      ttLookup h t = some v →
      access_ttable gc (some h) turn t =
        (idx v turn, (t.filter (fun p => p.1 != h)) ++ [(h, v)]))
    ∧ (∀ (ps : List (ℕ × List XR)) (cap : ℕ), 0 < cap → (ps.map Prod.fst).Nodup →
      ps.foldl (fun t p => update_ttable true cap (some p.1) p.2 t) [] =
        ps.drop (ps.length - cap)) := by
  refine ⟨?_, ?_, ?_⟩
  · intro cap h sc t
    rfl
  · intro gc h turn t v hhit
    simp [access_ttable, hhit]
  · intro ps cap hcap hnd
    exact lru_fold cap hcap ps hnd

/-- Witness for `C6_ttable_lru`: a concrete overwrite-free insert, a concrete
hit, and three distinct inserts into a table of capacity 2 leaving the last
two entries. -/
theorem C6_ttable_lru_witness :
    update_ttable true 2 (some 9) [XR.fin 1] [] = lru_insert_claimed 2 9 [XR.fin 1] []
    ∧ access_ttable gc7 (some 1) 0 [(1, [XR.fin 5])] = (XR.fin 5, [(1, [XR.fin 5])])
    ∧ [(1, [XR.fin 1]), (2, [XR.fin 2]), (3, [XR.fin 3])].foldl
        (fun t p => update_ttable true 2 (some p.1) p.2 t) [] =
        [(2, [XR.fin 2]), (3, [XR.fin 3])] := by
  refine ⟨C6_ttable_lru.1 2 9 [XR.fin 1] [], ?_, ?_⟩
  · have h := C6_ttable_lru.2.1 gc7 1 0 [(1, [XR.fin 5])] [XR.fin 5] rfl
    rw [h]
    with_unfolding_all rfl
  · have h := C6_ttable_lru.2.2 [(1, [XR.fin 1]), (2, [XR.fin 2]), (3, [XR.fin 3])] 2
      (by omega) (by simp)
    rw [h]
    rfl

/-- Membership-style `contains` distributes over append. -/
theorem ev_contains_append (a : Ev) (l₁ l₂ : List Ev) :
    (l₁ ++ l₂).contains a = (l₁.contains a || l₂.contains a) := by
  simp [List.contains, List.elem_eq_mem, List.mem_append]

/-- The trace/flag contract of one kernel phase: the trace grows by a suffix
`dl`; the `complete` flag is cleared exactly by a `depthZero` event in `dl`;
a time-expired result (`.ok none`) records exactly one `timeExpired` event and
it is the final event — nothing, in particular no game-contract call and no
table write, happens after detection; any other result records none. -/
def SideOk {α : Type} (s : St) (r : Except Err (Option α)) (s' : St) : Prop :=
  ∃ dl : List Ev,
    s'.trace = s.trace ++ dl
    ∧ s'.complete = (s.complete && !(dl.contains Ev.depthZero))
    ∧ (r = Except.ok none →
        dl.count Ev.timeExpired = 1 ∧ dl.getLast? = some Ev.timeExpired)
    ∧ (r ≠ Except.ok none → dl.count Ev.timeExpired = 0)

/-- A phase that neither touches the flag nor records special events
(clock-read bookkeeping, move ordering, table writes, tie-breaking). -/
def CleanStep (s s' : St) : Prop :=
  ∃ dl : List Ev,
    s'.trace = s.trace ++ dl
    ∧ s'.complete = s.complete
    ∧ dl.contains Ev.depthZero = false
    ∧ dl.count Ev.timeExpired = 0

theorem sideok_id {α : Type} {s : St} {r : Except Err (Option α)}
    (hne : r ≠ Except.ok none) : SideOk s r s :=
  ⟨[], by simp, by simp, fun hr => absurd hr hne, fun _ => rfl⟩

theorem sideok_cast {α β : Type} {s s' : St} {r1 : Except Err (Option α)}
    {r2 : Except Err (Option β)} (h : SideOk s r1 s')
    (hiff : r1 = Except.ok none ↔ r2 = Except.ok none) : SideOk s r2 s' := by
  obtain ⟨dl, h1, h2, h3, h4⟩ := h
  exact ⟨dl, h1, h2, fun hr => h3 (hiff.mpr hr),
         fun hr => h4 (fun he => hr (hiff.mp he))⟩

theorem cleanstep_comp {s s1 s2 : St} (h1 : CleanStep s s1)
    (h2 : CleanStep s1 s2) : CleanStep s s2 := by
  obtain ⟨d1, t1, c1, z1, x1⟩ := h1
  obtain ⟨d2, t2, c2, z2, x2⟩ := h2
  refine ⟨d1 ++ d2, ?_, ?_, ?_, ?_⟩
  · rw [t2, t1, List.append_assoc]
  · rw [c2, c1]
  · rw [ev_contains_append, z1, z2]
    rfl
  · rw [List.count_append]
    omega

theorem sideok_pre {α : Type} {s s1 s2 : St} {r : Except Err (Option α)}
    (h1 : CleanStep s s1) (h2 : SideOk s1 r s2) : SideOk s r s2 := by
  obtain ⟨d1, t1, c1, z1, x1⟩ := h1
  obtain ⟨d2, t2, c2, e2, n2⟩ := h2
  refine ⟨d1 ++ d2, ?_, ?_, ?_, ?_⟩
  · rw [t2, t1, List.append_assoc]
  · rw [c2, c1, ev_contains_append, z1]
    simp
  · intro hr
    obtain ⟨hcnt, hlast⟩ := e2 hr
    refine ⟨by rw [List.count_append]; omega, ?_⟩
    rw [List.getLast?_append, hlast]
    rfl
  · intro hr
    rw [List.count_append]
    have := n2 hr
    omega

theorem sideok_post {α : Type} {s s1 s2 : St} {r : Except Err (Option α)}
    (h1 : SideOk s r s1) (hne : r ≠ Except.ok none) (h2 : CleanStep s1 s2) :
    SideOk s r s2 := by
  obtain ⟨d1, t1, c1, e1, n1⟩ := h1
  obtain ⟨d2, t2, c2, z2, x2⟩ := h2
  refine ⟨d1 ++ d2, ?_, ?_, ?_, ?_⟩
  · rw [t2, t1, List.append_assoc]
  · rw [c2, c1, ev_contains_append, z2]
    simp
  · intro hr
    exact absurd hr hne
  · intro _
    rw [List.count_append]
    have := n1 hne
    omega

theorem sideok_comp {α β : Type} {s s1 s2 : St} {r1 : Except Err (Option α)}
    {r : Except Err (Option β)} (h1 : SideOk s r1 s1)
    (hne : r1 ≠ Except.ok none) (h2 : SideOk s1 r s2) : SideOk s r s2 := by
  obtain ⟨d1, t1, c1, e1, n1⟩ := h1
  obtain ⟨d2, t2, c2, e2, n2⟩ := h2
  have hd1 : d1.count Ev.timeExpired = 0 := n1 hne
  refine ⟨d1 ++ d2, ?_, ?_, ?_, ?_⟩
  · rw [t2, t1, List.append_assoc]
  · rw [c2, c1, ev_contains_append]
    simp [Bool.and_assoc]
  · intro hr
    obtain ⟨hcnt, hlast⟩ := e2 hr
    refine ⟨by rw [List.count_append]; omega, ?_⟩
    rw [List.getLast?_append, hlast]
    rfl
  · intro hr
    rw [List.count_append]
    have := n2 hr
    omega

/-- A successfully passed time check (clock read, `is_game_over()` call). -/
theorem cleanstep_timecheck (s : St) (n : ℕ) :
    CleanStep s { s with tick := n, trace := s.trace ++ [Ev.isGameOver] } :=
  ⟨[Ev.isGameOver], rfl, rfl, rfl, rfl⟩

/-- Replicated `get_next` events carry no `depthZero`/`timeExpired`. -/
theorem repl_getnext_clean (n : ℕ) :
    (List.replicate n Ev.getNext).contains Ev.depthZero = false
    ∧ (List.replicate n Ev.getNext).count Ev.timeExpired = 0 := by
  constructor
  · simp [List.contains, List.elem_eq_mem, List.mem_replicate]
  · exact List.count_eq_zero.mpr (by simp [List.mem_replicate])

/-- Ordering moves only reads the move list, applies moves and possibly
reshuffles the table: a clean phase. -/
theorem order_moves_clean (v : Variant) (gc : GC) (g : GTree) (s : St) :
    CleanStep s (order_moves_d v gc g s).2 := by
  obtain ⟨h1, h2⟩ := repl_getnext_clean g.children.length
  have hz : (Ev.movesRead :: List.replicate g.children.length Ev.getNext).contains
      Ev.depthZero = false := by
    simp [List.contains, List.elem_eq_mem, List.mem_replicate]
  have hx : (Ev.movesRead :: List.replicate g.children.length Ev.getNext).count
      Ev.timeExpired = 0 := by
    rw [List.count_cons]
    simp [h2]
  cases v with
  | iddfs =>
    exact ⟨Ev.movesRead :: List.replicate g.children.length Ev.getNext,
           rfl, rfl, hz, hx⟩
  | maxn =>
    exact ⟨Ev.movesRead :: List.replicate g.children.length Ev.getNext,
           rfl, rfl, hz, hx⟩
  | paranoid =>
    exact ⟨Ev.movesRead :: List.replicate g.children.length Ev.getNext,
           rfl, rfl, hz, hx⟩

/-- A tie-break only advances the random stream: a clean phase. -/
theorem cleanstep_rix (s : St) (n : ℕ) : CleanStep s { s with rix := n } :=
  ⟨[], by simp, rfl, rfl, rfl⟩

/-- A transposition write appends at most a `ttWrite` event: a clean phase. -/
theorem ttPut_clean (cfg : Cfg) (hash : Option ℕ) (sc : List XR) (s : St) :
    CleanStep s (ttPut cfg hash sc s) := by
  cases he : cfg.t_enable <;> cases hash <;> simp [ttPut, he]
  case false.none => exact ⟨[], by simp, rfl, rfl, rfl⟩
  case false.some h => exact ⟨[], by simp, rfl, rfl, rfl⟩
  case true.none => exact ⟨[], by simp, rfl, rfl, rfl⟩
  case true.some h => exact ⟨[Ev.ttWrite h], rfl, rfl, rfl, rfl⟩

/-- Bookkeeping contract of the child loop, given the contract of the one-ply
search it invokes. -/
theorem searchRest_sideok {v : Variant} {cfg : Cfg}
    {step : GTree → KW → St → Except Err (Option (List XR × List ℕ)) × St}
    {ckw : Option (List XR) → KW} {gturn : ℕ} {kw : KW}
    (hstep : ∀ g' kw' s r s', step g' kw' s = (r, s') → SideOk s r s') :
    ∀ (rest : List (ℕ × GTree)) (bs : List XR) (bm : ℕ) (bpv : List ℕ)
      (s : St) (r : Except Err (Option (List XR × ℕ × List ℕ))) (s' : St),
      searchRest v cfg step ckw gturn kw rest bs bm bpv s = (r, s') →
      SideOk s r s' := by
  intro rest
  induction rest with
  | nil =>
    intro bs bm bpv s r s' h
    rw [searchRest] at h
    cases h
    exact sideok_id (by simp)
  | cons c rest ih =>
    obtain ⟨m, ns⟩ := c
    intro bs bm bpv s r s' h
    rw [searchRest] at h
    by_cases hp : prune_d v cfg s.turnR gturn bs kw
    · rw [if_pos hp] at h
      cases h
      exact sideok_id (by simp)
    · rw [if_neg hp] at h
      cases hs : step ns (ckw (some bs)) s with
      | mk r1 s1 =>
        rw [hs] at h
        match r1, h with
        | .error e, h =>
          cases h
          exact sideok_cast (hstep _ _ _ _ _ hs) (by simp)
        | .ok none, h =>
          cases h
          exact sideok_cast (hstep _ _ _ _ _ hs) (by simp)
        | .ok (some (sc, pv)), h =>
          have hbase := hstep _ _ _ _ _ hs
          have hclean := cleanstep_rix s1 (is_better_d v cfg s1.turnR gturn sc bs s1.rix).2
          simp only [] at h
          by_cases hb : (is_better_d v cfg s1.turnR gturn sc bs s1.rix).1
          · rw [if_pos hb] at h
            exact sideok_comp hbase (by simp) (sideok_pre hclean (ih _ _ _ _ _ _ h))
          · rw [if_neg hb] at h
            exact sideok_comp hbase (by simp) (sideok_pre hclean (ih _ _ _ _ _ _ h))

/-- Bookkeeping contract of the whole depth-limited search: the trace only
grows; the `complete` flag is cleared exactly when a depth-zero cutoff event
was recorded; a time-expired result records exactly one `timeExpired` event
and nothing — no game-contract call, no transposition write — after it. -/
theorem depth_search_sideok (v : Variant) (gc : GC) (cfg : Cfg) :
    ∀ (d : ℕ) (g : GTree) (kw : KW) (s : St) (r : Except Err (Option (List XR × List ℕ)))
      (s' : St), depth_search v gc cfg d g kw s = (r, s') → SideOk s r s' := by
  intro d
  induction d with
  | zero =>
    intro g kw s r s' h
    rw [depth_search] at h
    by_cases ht : XR.ble (XR.fin cfg.budget) (XR.fin (cfg.clk s.tick - s.timeIni))
    · rw [if_pos ht] at h
      cases h
      exact ⟨[Ev.timeExpired], rfl, by simp, fun _ => ⟨rfl, rfl⟩,
             fun hne => absurd rfl hne⟩
    · rw [if_neg ht] at h
      by_cases hov : g.over
      · rw [if_pos hov] at h
        cases h
        exact ⟨[Ev.isGameOver, Ev.scoreRead], by simp, by simp,
               fun hr => by simp at hr, fun _ => rfl⟩
      · rw [if_neg hov] at h
        cases h
        exact ⟨[Ev.isGameOver, Ev.depthZero, Ev.scoreRead], by simp, by simp,
               fun hr => by simp at hr, fun _ => rfl⟩
  | succ d ih =>
    intro g kw s r s' h
    rw [depth_search] at h
    by_cases ht : XR.ble (XR.fin cfg.budget) (XR.fin (cfg.clk s.tick - s.timeIni))
    · rw [if_pos ht] at h
      cases h
      exact ⟨[Ev.timeExpired], rfl, by simp, fun _ => ⟨rfl, rfl⟩,
             fun hne => absurd rfl hne⟩
    · rw [if_neg ht] at h
      by_cases hov : g.over
      · rw [if_pos hov] at h
        cases h
        exact ⟨[Ev.isGameOver, Ev.scoreRead], by simp, by simp,
               fun hr => by simp at hr, fun _ => rfl⟩
      · rw [if_neg hov] at h
        have hc1 := cleanstep_timecheck s (s.tick + 1)
        cases ho : order_moves_d v gc g
            { s with tick := s.tick + 1, trace := s.trace ++ [Ev.isGameOver] } with
        | mk ordered s2 =>
          rw [ho] at h
          have hc2 : CleanStep s s2 := by
            have := order_moves_clean v gc g
              { s with tick := s.tick + 1, trace := s.trace ++ [Ev.isGameOver] }
            rw [ho] at this
            exact cleanstep_comp hc1 this
          match ordered, h with
          | [], h =>
            cases h
            exact sideok_pre hc2 (sideok_id (by simp))
          | (m0, g0) :: rest, h =>
            simp only [] at h
            cases h0 : depth_search v gc cfg d g0
                (calc_kwargs_d v gc s2.turnR g.turn none kw) s2 with
            | mk r3 s3 =>
              rw [h0] at h
              match r3, h with
              | .error e, h =>
                cases h
                exact sideok_pre hc2 (sideok_cast (ih _ _ _ _ _ h0) (by simp))
              | .ok none, h =>
                cases h
                exact sideok_pre hc2 (sideok_cast (ih _ _ _ _ _ h0) (by simp))
              | .ok (some (bs0, bpv0)), h =>
                simp only [] at h
                have hfirst := ih _ _ _ _ _ h0
                cases h1 : searchRest v cfg (depth_search v gc cfg d)
                    (fun best => calc_kwargs_d v gc s2.turnR g.turn best kw) g.turn kw
                    rest bs0 m0 bpv0 s3 with
                | mk r4 s4 =>
                  rw [h1] at h
                  have hrest := searchRest_sideok (fun g' kw' sx rx sx' hx => ih g' kw' sx rx sx' hx)
                    rest bs0 m0 bpv0 s3 r4 s4 h1
                  match r4, h with
                  | .error e, h =>
                    cases h
                    exact sideok_pre hc2
                      (sideok_comp hfirst (by simp) (sideok_cast hrest (by simp)))
                  | .ok none, h =>
                    cases h
                    exact sideok_pre hc2
                      (sideok_comp hfirst (by simp) (sideok_cast hrest (by simp)))
                  | .ok (some (bs, bm, bpv)), h =>
                    simp only [] at h
                    cases h
                    refine sideok_pre hc2 (sideok_comp hfirst (by simp) ?_)
                    refine sideok_post (sideok_cast hrest (by simp)) (by simp) ?_
                    exact ttPut_clean cfg g.hash bs s4

/-- Claim C3 (confirmed).  Once the wall clock has passed the deadline,
`depth_search` returns the `None` score at once, having consumed only the
clock read — table, flag, statistics and trace (bar the detection event)
untouched; whenever `depth_search` results in the `None` score, the events
added by the call contain exactly one `timeExpired`, as the very last event,
so no unwinding frame makes a game-contract call or a transposition write
after detection; and `get_move`'s loop then returns its saved move from the
last fully completed depth, only adding the depth statistics. -/
theorem C3_time_expiry_signal :
    (∀ (v : Variant) (gc : GC) (cfg : Cfg) (d : ℕ) (g : GTree) (kw : KW) (s : St),
      XR.ble (XR.fin cfg.budget) (XR.fin (cfg.clk s.tick - s.timeIni)) = true →
      depth_search v gc cfg d g kw s =
        (.ok none, { s with tick := s.tick + 1, trace := s.trace ++ [Ev.timeExpired] }))
    ∧ (∀ (v : Variant) (gc : GC) (cfg : Cfg) (d : ℕ) (g : GTree) (kw : KW) (s s' : St),
      depth_search v gc cfg d g kw s = (.ok none, s') →
      ∃ dl : List Ev, s'.trace = s.trace ++ dl
        ∧ dl.count Ev.timeExpired = 1
        ∧ dl.getLast? = some Ev.timeExpired)
    ∧ (∀ (v : Variant) (gc : GC) (cfg : Cfg) (g : GTree) (f depth saved : ℕ) (s s' : St),
      depth_search v gc cfg depth g
          (calc_kwargs_d v gc s.turnR g.turn none KW.base)
          { s with complete := true } = (.ok none, s') →
      getMoveLoop v gc cfg g (f + 1) depth saved s =
        (.ok saved, { s' with depth_sum := s'.depth_sum + (depth - 1),
                              move_count := s'.move_count + 1 })) := by
  refine ⟨?_, ?_, ?_⟩
  · intro v gc cfg d g kw s ht
    cases d <;> (rw [depth_search, if_pos ht])
  · intro v gc cfg d g kw s s' h
    obtain ⟨dl, h1, _, h3, _⟩ := depth_search_sideok v gc cfg d g kw s _ s' h
    obtain ⟨hc, hl⟩ := h3 rfl
    exact ⟨dl, h1, hc, hl⟩
  · intro v gc cfg g f depth saved s s' h
    rw [getMoveLoop]
    rw [h]

/-- Witness for `C3_time_expiry_signal`: under `cfgX` (clock at 100, budget 1)
the search expires immediately and the loop returns the saved move `5`. -/
theorem C3_time_expiry_signal_witness :
    depth_search .iddfs gc0 cfgX 2 leafA KW.base s0 =
      (.ok none, ⟨1, 0, 0, 0, 0, true, [], 0, 0, [Ev.timeExpired]⟩)
    ∧ (∃ dl : List Ev,
        (⟨1, 0, 0, 0, 0, true, [], 0, 0, [Ev.timeExpired]⟩ : St).trace = s0.trace ++ dl
        ∧ dl.count Ev.timeExpired = 1
        ∧ dl.getLast? = some Ev.timeExpired)
    ∧ getMoveLoop .iddfs gc0 cfgX leafA 1 1 5 s0 =
      (.ok 5, ⟨1, 0, 0, 0, 0, true, [], 0, 1, [Ev.timeExpired]⟩) := by
  refine ⟨?_, ?_, ?_⟩
  · have h := C3_time_expiry_signal.1 .iddfs gc0 cfgX 2 leafA KW.base s0
      (by with_unfolding_all rfl)
    rw [h]
    with_unfolding_all rfl
  · exact C3_time_expiry_signal.2.1 .iddfs gc0 cfgX 2 leafA KW.base s0
      ⟨1, 0, 0, 0, 0, true, [], 0, 0, [Ev.timeExpired]⟩
      (by have h := C3_time_expiry_signal.1 .iddfs gc0 cfgX 2 leafA KW.base s0
            (by with_unfolding_all rfl)
          rw [h]
          with_unfolding_all rfl)
  · have h := C3_time_expiry_signal.2.2 .iddfs gc0 cfgX leafA 0 1 5 s0
      ⟨1, 0, 0, 0, 0, true, [], 0, 0, [Ev.timeExpired]⟩
      (by with_unfolding_all rfl)
    rw [h]

/-- Claim C4 (confirmed).  Across any `depth_search` call the agent-level
`complete` flag ends false exactly when it started false or a depth-zero
cutoff event was recorded during the call — terminal returns and prune
cutoffs never clear it; and as soon as a depth finishes with the flag still
true, `get_move`'s loop returns the move chosen at that depth. -/
theorem C4_complete_flag :
    (∀ (v : Variant) (gc : GC) (cfg : Cfg) (d : ℕ) (g : GTree) (kw : KW) (s : St)
      (r : Except Err (Option (List XR × List ℕ))) (s' : St),
      depth_search v gc cfg d g kw s = (r, s') →
      ∃ dl : List Ev, s'.trace = s.trace ++ dl
        ∧ s'.complete = (s.complete && !(dl.contains Ev.depthZero)))
    ∧ (∀ (v : Variant) (gc : GC) (cfg : Cfg) (g : GTree) (f depth saved : ℕ)
      (s s' : St) (bs : List XR) (pv : List ℕ) (m : ℕ),
      depth_search v gc cfg depth g
          (calc_kwargs_d v gc s.turnR g.turn none KW.base)
          { s with complete := true } = (.ok (some (bs, pv)), s') →
      pv.getLast? = some m → s'.complete = true →
      getMoveLoop v gc cfg g (f + 1) depth saved s =
        (.ok m, { s' with depth_sum := s'.depth_sum + depth,
                          move_count := s'.move_count + 1 })) := by
  constructor
  · intro v gc cfg d g kw s r s' h
    obtain ⟨dl, h1, h2, _, _⟩ := depth_search_sideok v gc cfg d g kw s r s' h
    exact ⟨dl, h1, h2⟩
  · intro v gc cfg g f depth saved s s' bs pv m h hlast hcomp
    rw [getMoveLoop, h]
    simp only [hlast]
    rw [if_pos hcomp]

/-- Witness for `C4_complete_flag`: the depth-1 search of `single0` (terminal
child, no depth-zero cutoff) keeps the flag true, and the loop returns the
chosen move `7`. -/
theorem C4_complete_flag_witness :
    (∃ dl : List Ev,
      (⟨2, 0, 0, 0, 0, true, [], 0, 0,
        [Ev.isGameOver, Ev.movesRead, Ev.getNext, Ev.isGameOver, Ev.scoreRead]⟩ : St).trace =
        ({ s0 with complete := true } : St).trace ++ dl
      ∧ (⟨2, 0, 0, 0, 0, true, [], 0, 0,
          [Ev.isGameOver, Ev.movesRead, Ev.getNext, Ev.isGameOver, Ev.scoreRead]⟩ : St).complete =
        (({ s0 with complete := true } : St).complete && !(dl.contains Ev.depthZero)))
    ∧ getMoveLoop .iddfs gc0 cfg0 single0 1 1 9 s0 =
      (.ok 7, ⟨2, 0, 0, 0, 0, true, [], 1, 1,
        [Ev.isGameOver, Ev.movesRead, Ev.getNext, Ev.isGameOver, Ev.scoreRead]⟩) := by
  constructor
  · exact C4_complete_flag.1 .iddfs gc0 cfg0 1 single0 KW.base { s0 with complete := true }
      (.ok (some ([XR.fin 3, XR.fin (-3)], [7])))
      ⟨2, 0, 0, 0, 0, true, [], 0, 0,
        [Ev.isGameOver, Ev.movesRead, Ev.getNext, Ev.isGameOver, Ev.scoreRead]⟩
      (by with_unfolding_all rfl)
  · have h := C4_complete_flag.2 .iddfs gc0 cfg0 single0 0 1 9 s0
      ⟨2, 0, 0, 0, 0, true, [], 0, 0,
        [Ev.isGameOver, Ev.movesRead, Ev.getNext, Ev.isGameOver, Ev.scoreRead]⟩
      [XR.fin 3, XR.fin (-3)] [7] 7
      (by with_unfolding_all rfl) rfl rfl
    rw [h]
